import Mathlib

/-!
Verification development for the `queries` SQL loading library.

Text is modelled as `List Char` (Go strings).  Each definition is a direct
shallow embedding of the corresponding Go function in `queries.go` /
`scanner.go`; doc comments name the embedded source symbol.  Where Go
iterates over a `map` in unspecified order, the model fixes the insertion
order of the corresponding association list and this is noted at the
definition.
-/

namespace Queries

/-- ASCII uppercase letter, as in the character class `A-Z`. -/
def isUpperCh (c : Char) : Bool := 'A' ≤ c ∧ c ≤ 'Z'

/-- ASCII lowercase letter, as in the character class `a-z`. -/
def isLowerCh (c : Char) : Bool := 'a' ≤ c ∧ c ≤ 'z'

/-- Letter class `[A-Za-z]` used by the parameter regexes. -/
def isLetterCh (c : Char) : Bool := isUpperCh c ∨ isLowerCh c

/-- Digit class `[0-9]`. -/
def isDigitCh (c : Char) : Bool := '0' ≤ c ∧ c ≤ '9'

/-- Identifier-continuation class `[A-Za-z0-9_]` of the parameter regexes. -/
def isIdentCh (c : Char) : Bool := isLetterCh c ∨ isDigitCh c ∨ c = '_'

/-- Single quote character (code 39). -/
def quoteS : Char := Char.ofNat 39

/-- Double quote character (code 34). -/
def quoteD : Char := Char.ofNat 34

/-- Quote class `['"]` of the parameter regexes. -/
def isQuoteCh (c : Char) : Bool := c = quoteS ∨ c = quoteD

/-- Whitespace class `\s` of Go regexp: `[\t\n\f\r ]` (narrower than
`unicode.IsSpace`; it excludes vertical tab and non-ASCII whitespace). -/
def isSpaceCh (c : Char) : Bool :=
  c = ' ' ∨ c = '\t' ∨ c = '\n' ∨ c = '\x0d' ∨ c = '\x0c'

/-- `unicode.IsSpace`, the class trimmed by `strings.TrimSpace`: ASCII
whitespace (including vertical tab) plus the Unicode White_Space code
points U+0085, U+00A0, U+1680, U+2000..U+200A, U+2028, U+2029, U+202F,
U+205F and U+3000. -/
def isUniSpaceCh (c : Char) : Bool :=
  c = ' ' ∨ c = '\t' ∨ c = '\n' ∨ c = '\x0b' ∨ c = '\x0c' ∨ c = '\x0d' ∨
  c.toNat = 133 ∨ c.toNat = 160 ∨ c.toNat = 5760 ∨
  (8192 ≤ c.toNat ∧ c.toNat ≤ 8202) ∨ c.toNat = 8232 ∨ c.toNat = 8233 ∨
  c.toNat = 8239 ∨ c.toNat = 8287 ∨ c.toNat = 12288

/-- Key-continuation class `[a-zA-Z0-9_-]` of the metadata regex. -/
def isKeyCh (c : Char) : Bool := isLetterCh c ∨ isDigitCh c ∨ c = '_' ∨ c = '-'

/-! ### Comment stripping (`stripSQLComments`) -/

/-- One line truncated at the first occurrence of `--`
(Go: `strings.Index(line, "--")` then `line[:idx]`). -/
def lineTrunc : List Char → List Char
  | [] => []
  | c :: rest =>
    if c = '-' ∧ rest.head? = some '-' then [] else c :: lineTrunc rest

/-- Whether a line contains the `--` comment marker. -/
def hasDD : List Char → Bool
  | [] => false
  | c :: rest =>
    if c = '-' ∧ rest.head? = some '-' then true else hasDD rest

/-- Split on newline characters (Go: `strings.Split(query, "\n")`). -/
def splitNl : List Char → List (List Char)
  | [] => [[]]
  | c :: rest =>
    if c = '\n' then [] :: splitNl rest
    else
      match splitNl rest with
      | l :: ls => (c :: l) :: ls
      | [] => [[c]]

/-- Rejoin lines with newlines (Go: `strings.Join(result, "\n")`). -/
def joinNl : List (List Char) → List Char
  | [] => []
  | [l] => l
  | l :: ls => l ++ '\n' :: joinNl ls

/-- Embeds `stripSQLComments`: every line truncated at its first `--`,
lines rejoined with newlines. -/
def stripSQLComments (query : List Char) : List Char :=
  joinNl ((splitNl query).map lineTrunc)

/-! ### Parameter detection regexes

`colonParamRE  = [^:]:['"]?([A-Za-z][A-Za-z0-9_]*)['"]?`
`atSignParamRE = [^@]@['"]?([A-Za-z][A-Za-z0-9_]*)['"]?`
`positionalParamRE = \$(\d+)`

Matching follows Go's regexp semantics: leftmost match, greedy
quantifiers with backtracking, and `FindAll` continues after the end of
each match (non-overlapping). -/

/-- Consume an identifier `[A-Za-z][A-Za-z0-9_]*` (greedy); returns the
captured identifier and the remainder. -/
def grabIdent : List Char → Option (List Char × List Char)
  | [] => none
  | c :: rest =>
    if isLetterCh c then some (c :: rest.takeWhile isIdentCh, rest.dropWhile isIdentCh)
    else none

/-- Consume the optional trailing quote `['"]?` (greedy). -/
def dropLeadQuote : List Char → List Char
  | [] => []
  | c :: rest => if isQuoteCh c then rest else c :: rest

/-- The part of the named-parameter pattern after the marker:
`['"]?([A-Za-z][A-Za-z0-9_]*)['"]?`.  A leading quote is consumed only
when an identifier follows (the backtracked alternative would place the
identifier where the quote is, which cannot match a letter). -/
def afterMarker : List Char → Option (List Char × List Char)
  | [] => none
  | c :: rest =>
    if isQuoteCh c then
      match grabIdent rest with
      | some (id, rem) => some (id, dropLeadQuote rem)
      | none => none
    else
      match grabIdent (c :: rest) with
      | some (id, rem) => some (id, dropLeadQuote rem)
      | none => none

/-- Attempt the pattern `[^m]m['"]?(ident)['"]?` at the head of the text.
On success returns the captured identifier and the text following the
whole match. -/
def matchParamAt (marker : Char) : List Char → Option (List Char × List Char)
  | c0 :: c1 :: rest =>
    if c0 ≠ marker ∧ c1 = marker then afterMarker rest else none
  | _ => none

/-- The scanning loop of `FindAllStringSubmatch` for the named-parameter
pattern, with explicit fuel (the loop advances at least one character per
step, so fuel equal to the text length is enough). -/
def findAllParamsF (marker : Char) : Nat → List Char → List (List Char)
  | 0, _ => []
  | _ + 1, [] => []
  | fuel + 1, c :: rest =>
    match matchParamAt marker (c :: rest) with
    | some (id, rem) => id :: findAllParamsF marker fuel rem
    | none => findAllParamsF marker fuel rest

/-- `FindAllStringSubmatch` for the named-parameter pattern with the given
marker: all captured identifiers, leftmost first, non-overlapping. -/
def findAllParams (marker : Char) (l : List Char) : List (List Char) :=
  findAllParamsF marker l.length l

/-- Attempt `\$(\d+)` at the head of the text; captures the digit run. -/
def matchPosAt : List Char → Option (List Char × List Char)
  | [] => none
  | c :: rest =>
    if c = '$' then
      match rest.head? with
      | some d =>
        if isDigitCh d then some (rest.takeWhile isDigitCh, rest.dropWhile isDigitCh)
        else none
      | none => none
    else none

/-- The scanning loop of `FindAllStringSubmatch` for `\$(\d+)`, with
explicit fuel. -/
def findAllPositionalF : Nat → List Char → List (List Char)
  | 0, _ => []
  | _ + 1, [] => []
  | fuel + 1, c :: rest =>
    match matchPosAt (c :: rest) with
    | some (id, rem) => id :: findAllPositionalF fuel rem
    | none => findAllPositionalF fuel rest

/-- `FindAllStringSubmatch` for `\$(\d+)`: all captured digit runs. -/
def findAllPositional (l : List Char) : List (List Char) :=
  findAllPositionalF l.length l

/-! ### The parameter analyzer (`NewQuery` and helpers) -/

/-- Worker for `natDigits`, with explicit fuel. -/
def natDigitsF : Nat → Nat → List Char
  | 0, _ => []
  | fuel + 1, n =>
    if n < 10 then [Char.ofNat (48 + n)]
    else natDigitsF fuel (n / 10) ++ [Char.ofNat (48 + n % 10)]

/-- Decimal digits of a natural number, as printed by
`fmt.Sprintf("%d", n)` for non-negative `n` (fuel `n + 1` always
suffices since the argument shrinks by a factor of ten). -/
def natDigits (n : Nat) : List Char := natDigitsF (n + 1) n

/-- Unbounded decimal value of a digit run (the numeral as written in
the text). -/
def digitsVal (ds : List Char) : Nat :=
  ds.foldl (fun a c => a * 10 + (c.toNat - 48)) 0

/-- The value assigned by `fmt.Sscanf(s, "%d", &num)` on an all-digit
run, where `num` is a 64-bit `int` initialized to zero: the decimal
value when the run fits `MaxInt64`; on larger runs `Sscanf` reports a
range error before assigning, `handlePositionalParams` ignores the
error, and `num` keeps its initial zero. -/
def digitsToNat (ds : List Char) : Nat :=
  if digitsVal ds ≤ 9223372036854775807 then digitsVal ds else 0

/-- `reservedNames = []string{"MI", "SS"}`. -/
def reservedNames : List (List Char) := [['M', 'I'], ['S', 'S']]

/-- Embeds `isReservedName`. -/
def isReservedName (name : List Char) : Bool := name ∈ reservedNames

/-- Embeds `filterReservedNames` (every match row carries its capture, so
the `len(match) > 1` guard is always satisfied). -/
def filterReservedNames (ms : List (List Char)) : List (List Char) :=
  ms.filter (fun m => ¬ isReservedName m)

/-- The three placeholder conventions, in the order `validateSingleParameterStyle`
reports them. -/
inductive ParamStyle
  | positional
  | colon
  | atSign
deriving DecidableEq, Repr

/-- Analysis failure (`NewQuery` returning an error). -/
inductive QueryError
  | mixedStyles (queryName : List Char) (styles : List ParamStyle)
deriving DecidableEq, Repr

/-- The query descriptor (`Query` struct).  `mapping` and `metadata` embed
Go maps as association lists; `mapping` is kept in insertion
(first-occurrence) order, which also gives the order of `NamedArgs`. -/
structure Query where
  name : List Char
  path : List Char
  raw : List Char
  ordinalQuery : List Char
  mapping : List (List Char × Nat)
  args : List (List Char)
  metadata : List (List Char × List Char)
deriving DecidableEq, Repr

instance {e a : Type} [DecidableEq e] [DecidableEq a] : DecidableEq (Except e a) := fun x y =>
  match x, y with
  | .ok v, .ok w =>
    if h : v = w then isTrue (by rw [h]) else isFalse (by intro he; cases he; exact h rfl)
  | .error v, .error w =>
    if h : v = w then isTrue (by rw [h]) else isFalse (by intro he; cases he; exact h rfl)
  | .ok _, .error _ => isFalse (by intro he; cases he)
  | .error _, .ok _ => isFalse (by intro he; cases he)

/-- Go map lookup on an association list (first binding wins; keys are
kept unique by construction). -/
def lookupA {α β : Type} [DecidableEq α] : List (α × β) → α → Option β
  | [], _ => none
  | (k, v) :: rest, key => if key = k then some v else lookupA rest key

/-- Go map update on an association list (last write wins). -/
def setAssoc {α β : Type} [DecidableEq α] : List (α × β) → α → β → List (α × β)
  | [], k, v => [(k, v)]
  | (k', v') :: rest, k, v =>
    if k = k' then (k, v) :: rest else (k', v') :: setAssoc rest k v

/-- The accumulation loop of `handleNamedParams` over all matches:
skip reserved names, append every other match to `args`, and assign the
next ordinal (starting at `pos`) on first sight of a name.  Returns the
occurrence list and the final mapping. -/
def buildNamedGo : List (List Char) → Nat → List (List Char × Nat) →
    List (List Char) × List (List Char × Nat)
  | [], _, mapping => ([], mapping)
  | v :: rest, pos, mapping =>
    if isReservedName v then buildNamedGo rest pos mapping
    else
      match lookupA mapping v with
      | some _ =>
        let r := buildNamedGo rest pos mapping
        (v :: r.1, r.2)
      | none =>
        let r := buildNamedGo rest (pos + 1) (mapping ++ [(v, pos)])
        (v :: r.1, r.2)

/-- The ordinal marker text `$<ord>`. -/
def dollarMark (ord : Nat) : List Char := '$' :: natDigits ord

/-- Match a literal character sequence at the head of the text, returning
the remainder. -/
def chopLit : List Char → List Char → Option (List Char)
  | [], s => some s
  | _ :: _, [] => none
  | p :: ps, c :: cs => if p = c then chopLit ps cs else none

/-- The part of the replacement pattern after the `[:@]` marker:
`["']?<name>["']?`.  If the optional leading quote is present but the
name does not follow it, the backtracked alternative tries the name at
the quote itself. -/
def matchNamedTail (name : List Char) : List Char → Option (List Char)
  | [] => if name = [] then some [] else none
  | q :: rest2 =>
    if isQuoteCh q then
      match chopLit name rest2 with
      | some rem => some (dropLeadQuote rem)
      | none =>
        match chopLit name (q :: rest2) with
        | some rem => some (dropLeadQuote rem)
        | none => none
    else
      match chopLit name (q :: rest2) with
      | some rem => some (dropLeadQuote rem)
      | none => none

/-- Attempt the replacement pattern `[:@]["']?<name>["']?`
(`namedParamRE` instantiated with a parameter name) at the head of the
text; on success returns the text following the whole match. -/
def matchNamedAt (name : List Char) : List Char → Option (List Char)
  | [] => none
  | c :: rest => if c = ':' ∨ c = '@' then matchNamedTail name rest else none

def replaceNamedF (name : List Char) (ord : Nat) : Nat → List Char → List Char
  | 0, _ => []
  | _ + 1, [] => []
  | fuel + 1, c :: rest =>
    match matchNamedAt name (c :: rest) with
    | some rem => dollarMark ord ++ replaceNamedF name ord fuel rem
    | none => c :: replaceNamedF name ord fuel rest

/-- Embeds `pattern.ReplaceAllLiteralString(query, fmt.Sprintf("$%d", ord))`
for `namedParamRE` instantiated with one parameter name: every leftmost
non-overlapping match is replaced by `$<ord>`. -/
def replaceNamed (name : List Char) (ord : Nat) (l : List Char) : List Char :=
  replaceNamedF name ord l.length l

/-- The replacement loop of `handleNamedParams` over the whole mapping.
Go iterates the `mapping` map in unspecified order; the model fixes the
insertion (first-occurrence) order of the association list. -/
def replaceAllPairs (pairs : List (List Char × Nat)) (text : List Char) : List Char :=
  pairs.foldl (fun t p => replaceNamed p.1 p.2 t) text

/-- The synthesized header line `fmt.Sprintf("-- name: %s\n...", name)`. -/
def headerLine (name : List Char) : List Char :=
  ('-' :: '-' :: ' ' :: 'n' :: 'a' :: 'm' :: 'e' :: ':' :: ' ' :: name) ++ ['\n']

/-- The combined match list of `handleNamedParams`: colon matches then
at-sign matches on the comment-stripped text (only one side is nonempty
after validation). -/
def allNamedMatches (cleanQuery : List Char) : List (List Char) :=
  findAllParams ':' cleanQuery ++ findAllParams '@' cleanQuery

/-- Embeds `handleNamedParams`: re-finds colon and at-sign matches on the
stripped text, accumulates occurrences and first-occurrence ordinals,
then rewrites the *original* text. -/
def handleNamedParams (name path query cleanQuery : List Char)
    (metadata : List (List Char × List Char)) : Query :=
  let am := buildNamedGo (allNamedMatches cleanQuery) 1 []
  let replaced := replaceAllPairs am.2 query
  { name := name, path := path, raw := query,
    ordinalQuery := headerLine name ++ replaced,
    mapping := am.2, args := am.1, metadata := metadata }

/-- The maximum ordinal among the positional matches (`maxParam`). -/
def maxOrdinal (ms : List (List Char)) : Nat :=
  ms.foldl (fun m d => max m (digitsToNat d)) 0

/-- The synthetic name `fmt.Sprintf("arg%d", i)`. -/
def argName (i : Nat) : List Char := 'a' :: 'r' :: 'g' :: natDigits i

/-- The loop `for i := 1; i <= maxParam; i++` of `handlePositionalParams`,
expressed as: starting at ordinal `i` with `k` ordinals left to create,
produce the argument list and the mapping entries in order. -/
def buildArgsFrom (i : Nat) : Nat → List (List Char) × List (List Char × Nat)
  | 0 => ([], [])
  | k + 1 =>
    let rest := buildArgsFrom (i + 1) k
    (argName i :: rest.1, (argName i, i) :: rest.2)

/-- Embeds `handlePositionalParams`: synthesize `arg1..argN` for
`N = maxParam`; no text rewriting occurs. -/
def handlePositionalParams (name path query : List Char)
    (ms : List (List Char)) (metadata : List (List Char × List Char)) : Query :=
  let n := maxOrdinal ms
  let am := buildArgsFrom 1 n
  { name := name, path := path, raw := query,
    ordinalQuery := headerLine name ++ query,
    mapping := am.2, args := am.1, metadata := metadata }

/-- The styles found, in the order `validateSingleParameterStyle` checks
them (positional, colon, at-sign), computed from the comment-stripped
text with reserved names filtered from the named conventions exactly as
`NewQuery` does. -/
def stylesFound (query : List Char) : List ParamStyle :=
  let clean := stripSQLComments query
  (if findAllPositional clean ≠ [] then [ParamStyle.positional] else []) ++
  (if filterReservedNames (findAllParams ':' clean) ≠ [] then [ParamStyle.colon] else []) ++
  (if filterReservedNames (findAllParams '@' clean) ≠ [] then [ParamStyle.atSign] else [])

/-- Embeds `NewQuery`: strip comments, detect the three conventions,
reject mixed styles, then dispatch to the positional or named handler. -/
def newQuery (name path query : List Char)
    (metadata : List (List Char × List Char)) : Except QueryError Query :=
  let clean := stripSQLComments query
  let positionalMatches := findAllPositional clean
  let styles := stylesFound query
  if 2 ≤ styles.length then .error (.mixedStyles name styles)
  else if positionalMatches ≠ [] then
    .ok (handlePositionalParams name path query positionalMatches metadata)
  else
    .ok (handleNamedParams name path query clean metadata)

/-! ### The block scanner (`scanner.go`) -/

/-- Lowercase an ASCII letter (`strings.ToLower` on the ASCII keys the
metadata regex admits). -/
def toLowerCh (c : Char) : Char :=
  if isUpperCh c then Char.ofNat (c.toNat + 32) else c

/-- `strings.TrimSpace`: drop whitespace from both ends. -/
def trimSpace (l : List Char) : List Char :=
  ((l.dropWhile isSpaceCh).reverse.dropWhile isSpaceCh).reverse

/-- `strings.Trim(line, " \t")` as used by `appendQueryLine`. -/
def trimLine (l : List Char) : List Char :=
  ((l.dropWhile (fun c => c = ' ' ∨ c = '\t')).reverse.dropWhile
    (fun c => c = ' ' ∨ c = '\t')).reverse

/-- Leading `\s*`. -/
def dropSpaces (l : List Char) : List Char := l.dropWhile isSpaceCh

/-- `strings.HasPrefix(trimmed, "--")`. -/
def startsDD (l : List Char) : Bool := (chopLit ['-', '-'] l).isSome

/-- Embeds `getTag`: the regex `^\s*--\s*name:\s*(\S+)`. -/
def getTag (line : List Char) : Option (List Char) :=
  match chopLit ['-', '-'] (dropSpaces line) with
  | none => none
  | some r2 =>
    match chopLit ['n', 'a', 'm', 'e', ':'] (dropSpaces r2) with
    | none => none
    | some r4 =>
      let tok := (dropSpaces r4).takeWhile (fun c => ¬ isSpaceCh c)
      if tok = [] then none else some tok

/-- Embeds `getMetadata`: the regex
`^\s*--\s*([a-zA-Z][a-zA-Z0-9_-]*):\s*(.+)\s*$`, with the literal key
`name` rejected before normalization, the key lowercased and the value
trimmed.  (The greedy `(.+)` with the trailing `\s*$` captures up to the
end of the line, so after `strings.TrimSpace` the value is the trimmed
remainder; the `.+` requires at least one character after the colon.) -/

def getMetadata (line : List Char) : Option (List Char × List Char) :=
  match chopLit ['-', '-'] (dropSpaces line) with
  | none => none
  | some r2 =>
    match dropSpaces r2 with
    | [] => none
    | c :: rest =>
      if isLetterCh c then
        let key := c :: rest.takeWhile isKeyCh
        match rest.dropWhile isKeyCh with
        | ':' :: value =>
          if value = [] then none
          else if key = ['n', 'a', 'm', 'e'] then none
          else some (key.map toLowerCh, trimSpace value)
        | _ => none
      else none

/-- Scanner accumulator output for one block (`ScannedQuery`).  The Go
`map[string]string` metadata is an association list with unique keys. -/
structure ScannedQuery where
  query : List Char
  metadata : List (List Char × List Char)
deriving DecidableEq, Repr

/-- The mutable scanner record: the accumulated blocks (a Go map keyed by
name, embedded as an association list with unique keys) and the current
block name. -/
structure ScanState where
  queries : List (List Char × ScannedQuery)
  current : List Char
deriving DecidableEq, Repr

/-- The two states of the scanner state machine (`initialState` /
`queryState` as state functions). -/
inductive ScanMode
  | seeking
  | inBlock
deriving DecidableEq, Repr

/-- The fresh block value `&ScannedQuery{Query: "", Metadata: ...}`. -/
def emptyScanned : ScannedQuery := { query := [], metadata := [] }

/-- Embeds `(*Scanner).appendQueryLine`: trim the line of spaces/tabs,
skip it when empty, otherwise create the current block if needed and
append the line (with a newline separator when the body is nonempty). -/
def appendQueryLine (s : ScanState) (line : List Char) : ScanState :=
  let t := trimLine line
  if t = [] then s
  else
    let sq := (lookupA s.queries s.current).getD emptyScanned
    let q := if sq.query = [] then t else sq.query ++ '\n' :: t
    { s with queries := setAssoc s.queries s.current { sq with query := q } }

/-- Embeds `(*Scanner).appendMetadata`: create the current block if
needed (with an empty body) and set the key (last write wins). -/
def appendMetadata (s : ScanState) (key value : List Char) : ScanState :=
  let sq := (lookupA s.queries s.current).getD emptyScanned
  { s with
    queries := setAssoc s.queries s.current
      { sq with metadata := setAssoc sq.metadata key value } }

/-- One line of the scanner state machine: `initialState` (seeking) and
`queryState` (in a block), exactly as dispatched by `Run`. -/
def scanStep : ScanMode × ScanState → List Char → ScanMode × ScanState
  | (.seeking, s), line =>
    match getTag line with
    | some tag => (.inBlock, { s with current := tag })
    | none =>
      let t := trimSpace line
      if t = [] ∨ startsDD t then (.seeking, s)
      else (.inBlock, appendQueryLine s line)
  | (.inBlock, s), line =>
    match getTag line with
    | some tag => (.inBlock, { s with current := tag })
    | none =>
      match getMetadata line with
      | some kv => (.inBlock, appendMetadata s kv.1 kv.2)
      | none => (.inBlock, appendQueryLine s line)

/-- Embeds `(*Scanner).Run` over an already-split line stream.
`defaultName` is the stream's derived name (`filepath.Base` of the file
name with its extension trimmed — that derivation is caller-side I/O and
is passed in here). -/
def runScanner (defaultName : List Char) (lines : List (List Char)) :
    List (List Char × ScannedQuery) :=
  (lines.foldl scanStep (ScanMode.seeking, { queries := [], current := defaultName })).2.queries

/-! ### The registry loader (`loadQueriesFromFile`) -/

/-- Failure of one load operation. -/
inductive LoadError
  | duplicate (name : List Char)
  | createFailed (name : List Char) (e : QueryError)
deriving DecidableEq, Repr

/-- Embeds the insertion loop of `loadQueriesFromFile`: for each scanned
block, fail on a name already present in the store (leaving the store as
mutated so far), fail if analysis fails, otherwise insert.  Go iterates
the scanner's `map` in unspecified order; the model takes the blocks as
a list. -/
def loadQueries (path : List Char) :
    List (List Char × Query) → List (List Char × ScannedQuery) →
    List (List Char × Query) × Option LoadError
  | store, [] => (store, none)
  | store, (name, sq) :: rest =>
    if (lookupA store name).isSome then (store, some (.duplicate name))
    else
      match newQuery name path sq.query sq.metadata with
      | .error e => (store, some (.createFailed name e))
      | .ok q => loadQueries path (store ++ [(name, q)]) rest

/-! ### Argument binding (`(*Query).Prepare`) -/

/-- The comparison `params[i].Ord < params[j].Ord` of `Prepare`, as a
total order for sorting (with the distinct ordinals produced by
analysis, any comparison-based sort yields the same result). -/
def leOrd (a b : List Char × Nat) : Prop := a.2 ≤ b.2

instance : DecidableRel leOrd := fun a b => Nat.decLe a.2 b.2

instance : IsTotal (List Char × Nat) leOrd := ⟨fun a b => Nat.le_total a.2 b.2⟩

instance : IsTrans (List Char × Nat) leOrd := ⟨fun _ _ _ => Nat.le_trans⟩

/-- Embeds `(*Query).Prepare`: sort the mapping's (name, ordinal) pairs
by ascending ordinal and look each name up in the caller's argument
table; a missing name gives the Go `nil` (here `none`). -/
def prepare {V : Type} (argTable : List (List Char × V))
    (mapping : List (List Char × Nat)) : List (Option V) :=
  (List.insertionSort leOrd mapping).map (fun p => lookupA argTable p.1)

/-! ### Observation helpers used only in theorem statements -/

/-- The trailing-comment portion of a single line: the suffix starting at
the first `--` marker (empty when there is no comment). -/
def commentPart : List Char → List Char
  | [] => []
  | c :: rest =>
    if c = '-' ∧ rest.head? = some '-' then c :: rest else commentPart rest

/-- The distinct names of a match list in first-occurrence order, given
the names already seen. -/
def firstOccs (seen : List (List Char)) : List (List Char) → List (List Char)
  | [] => []
  | v :: rest =>
    if v ∈ seen then firstOccs seen rest else v :: firstOccs (v :: seen) rest

/-- Pair each element with consecutive ordinals starting at `n`. -/
def numberFrom (n : Nat) : List (List Char) → List (List Char × Nat)
  | [] => []
  | v :: rest => (v, n) :: numberFrom (n + 1) rest

/-- The occurrence list of a successful analysis. -/
def analyzedArgs (r : Except QueryError Query) : Option (List (List Char)) :=
  match r with
  | .ok q => some q.args
  | .error _ => none

/-- The binding table of a successful analysis. -/
def analyzedMapping (r : Except QueryError Query) : Option (List (List Char × Nat)) :=
  match r with
  | .ok q => some q.mapping
  | .error _ => none

/-- The ordinal-rewritten text of a successful analysis. -/
def analyzedOrdinal (r : Except QueryError Query) : Option (List Char) :=
  match r with
  | .ok q => some q.ordinalQuery
  | .error _ => none

/-! ### Supporting lemmas -/

theorem grabIdent_len {l id rem : List Char} (h : grabIdent l = some (id, rem)) :
    rem.length < l.length := by
  cases l with
  | nil => simp [grabIdent] at h
  | cons c rest =>
    simp only [grabIdent] at h
    by_cases hc : isLetterCh c = true
    · simp [hc] at h
      have hsub : List.Sublist (List.dropWhile isIdentCh rest) rest := List.dropWhile_sublist _
      have := hsub.length_le
      simp [← h.2]
      omega
    · simp [hc] at h

theorem dropLeadQuote_len (l : List Char) : (dropLeadQuote l).length ≤ l.length := by
  cases l with
  | nil => simp [dropLeadQuote]
  | cons c rest =>
    simp only [dropLeadQuote]
    split <;> simp

theorem afterMarker_len {l id rem : List Char} (h : afterMarker l = some (id, rem)) :
    rem.length < l.length := by
  cases l with
  | nil => simp [afterMarker] at h
  | cons c rest =>
    simp only [afterMarker] at h
    by_cases hq : isQuoteCh c = true
    · simp only [hq, if_pos] at h
      cases hg : grabIdent rest with
      | none => simp [hg] at h
      | some p =>
        obtain ⟨id0, rem0⟩ := p
        simp [hg] at h
        have h1 := grabIdent_len hg
        have h2 := dropLeadQuote_len rem0
        have := h.2
        subst this
        simp only [List.length_cons]
        omega
    · rw [if_neg hq] at h
      cases hg : grabIdent (c :: rest) with
      | none => simp [hg] at h
      | some p =>
        obtain ⟨id0, rem0⟩ := p
        simp [hg] at h
        have h1 := grabIdent_len hg
        have h2 := dropLeadQuote_len rem0
        have := h.2
        subst this
        simp only [List.length_cons] at h1 ⊢
        omega

theorem matchParamAt_len {m : Char} {l id rem : List Char}
    (h : matchParamAt m l = some (id, rem)) : rem.length < l.length := by
  match l with
  | [] => simp [matchParamAt] at h
  | [c] => simp [matchParamAt] at h
  | c0 :: c1 :: rest =>
    simp only [matchParamAt] at h
    split at h
    · have := afterMarker_len h
      simp only [List.length_cons]
      omega
    · exact absurd h (by simp)

theorem findAllParamsF_eq (marker : Char) :
    ∀ fuel1 fuel2 l, l.length ≤ fuel1 → l.length ≤ fuel2 →
      findAllParamsF marker fuel1 l = findAllParamsF marker fuel2 l := by
  intro fuel1
  induction fuel1 with
  | zero =>
    intro fuel2 l h1 _
    have : l = [] := List.length_eq_zero.mp (Nat.le_zero.mp h1)
    subst this
    cases fuel2 <;> rfl
  | succ fuel1 ih =>
    intro fuel2 l h1 h2
    cases l with
    | nil => cases fuel2 <;> rfl
    | cons c rest =>
      cases fuel2 with
      | zero => simp at h2
      | succ fuel2 =>
        simp only [findAllParamsF]
        cases h : matchParamAt marker (c :: rest) with
        | some p =>
          obtain ⟨id, rem⟩ := p
          have hrem := matchParamAt_len h
          simp only [List.length_cons] at hrem h1 h2
          show id :: findAllParamsF marker fuel1 rem = id :: findAllParamsF marker fuel2 rem
          rw [ih fuel2 rem (by omega) (by omega)]
        | none =>
          simp only [List.length_cons] at h1 h2
          show findAllParamsF marker fuel1 rest = findAllParamsF marker fuel2 rest
          rw [ih fuel2 rest (by omega) (by omega)]

/-- The recurrence actually satisfied by `findAllParams`. -/
theorem findAllParams_cons (marker : Char) (c : Char) (rest : List Char) :
    findAllParams marker (c :: rest) =
      match matchParamAt marker (c :: rest) with
      | some (id, rem) => id :: findAllParams marker rem
      | none => findAllParams marker rest := by
  simp only [findAllParams, List.length_cons, findAllParamsF]
  cases h : matchParamAt marker (c :: rest) with
  | some p =>
    obtain ⟨id, rem⟩ := p
    have hrem := matchParamAt_len h
    simp only [List.length_cons] at hrem
    show id :: findAllParamsF marker rest.length rem = id :: findAllParamsF marker rem.length rem
    rw [findAllParamsF_eq marker rest.length rem.length rem (by omega) (by omega)]
  | none =>
    show findAllParamsF marker rest.length rest = findAllParamsF marker rest.length rest
    rfl

theorem matchPosAt_len {l id rem : List Char} (h : matchPosAt l = some (id, rem)) :
    rem.length < l.length := by
  cases l with
  | nil => simp [matchPosAt] at h
  | cons c rest =>
    simp only [matchPosAt] at h
    split at h
    · cases hh : rest.head? with
      | none => simp [hh] at h
      | some d =>
        simp only [hh] at h
        split at h
        · simp at h
          have hsub : List.Sublist (List.dropWhile isDigitCh rest) rest := List.dropWhile_sublist _
          have := hsub.length_le
          simp [← h.2]
          omega
        · simp at h
    · simp at h

theorem findAllPositionalF_eq :
    ∀ fuel1 fuel2 l, l.length ≤ fuel1 → l.length ≤ fuel2 →
      findAllPositionalF fuel1 l = findAllPositionalF fuel2 l := by
  intro fuel1
  induction fuel1 with
  | zero =>
    intro fuel2 l h1 _
    have : l = [] := List.length_eq_zero.mp (Nat.le_zero.mp h1)
    subst this
    cases fuel2 <;> rfl
  | succ fuel1 ih =>
    intro fuel2 l h1 h2
    cases l with
    | nil => cases fuel2 <;> rfl
    | cons c rest =>
      cases fuel2 with
      | zero => simp at h2
      | succ fuel2 =>
        simp only [findAllPositionalF]
        cases h : matchPosAt (c :: rest) with
        | some p =>
          obtain ⟨id, rem⟩ := p
          have hrem := matchPosAt_len h
          simp only [List.length_cons] at hrem h1 h2
          show id :: findAllPositionalF fuel1 rem = id :: findAllPositionalF fuel2 rem
          rw [ih fuel2 rem (by omega) (by omega)]
        | none =>
          simp only [List.length_cons] at h1 h2
          show findAllPositionalF fuel1 rest = findAllPositionalF fuel2 rest
          rw [ih fuel2 rest (by omega) (by omega)]

/-- The recurrence actually satisfied by `findAllPositional`. -/
theorem findAllPositional_cons (c : Char) (rest : List Char) :
    findAllPositional (c :: rest) =
      match matchPosAt (c :: rest) with
      | some (id, rem) => id :: findAllPositional rem
      | none => findAllPositional rest := by
  simp only [findAllPositional, List.length_cons, findAllPositionalF]
  cases h : matchPosAt (c :: rest) with
  | some p =>
    obtain ⟨id, rem⟩ := p
    have hrem := matchPosAt_len h
    simp only [List.length_cons] at hrem
    show id :: findAllPositionalF rest.length rem = id :: findAllPositionalF rem.length rem
    rw [findAllPositionalF_eq rest.length rem.length rem (by omega) (by omega)]
  | none =>
    show findAllPositionalF rest.length rest = findAllPositionalF rest.length rest
    rfl

theorem chopLit_len {p l rem : List Char} (h : chopLit p l = some rem) :
    rem.length ≤ l.length := by
  induction p generalizing l with
  | nil =>
    simp [chopLit] at h
    simp [h]
  | cons x xs ih =>
    cases l with
    | nil => simp [chopLit] at h
    | cons c cs =>
      simp only [chopLit] at h
      split at h
      · have := ih h
        simp only [List.length_cons]
        omega
      · exact absurd h (by simp)

theorem matchNamedTail_len {name rest rem : List Char}
    (h : matchNamedTail name rest = some rem) : rem.length ≤ rest.length := by
  cases rest with
  | nil =>
    simp only [matchNamedTail] at h
    split at h
    · simp at h
      simp [h]
    · exact absurd h (by simp)
  | cons q rest2 =>
    simp only [matchNamedTail] at h
    split at h
    · cases h1 : chopLit name rest2 with
      | some rem0 =>
        simp [h1] at h
        have := chopLit_len h1
        have h2 := dropLeadQuote_len rem0
        simp only [List.length_cons, ← h]
        omega
      | none =>
        simp only [h1] at h
        cases h2 : chopLit name (q :: rest2) with
        | some rem1 =>
          simp [h2] at h
          have := chopLit_len h2
          have h3 := dropLeadQuote_len rem1
          simp only [List.length_cons, ← h] at *
          omega
        | none => simp [h2] at h
    · cases h2 : chopLit name (q :: rest2) with
      | some rem1 =>
        simp [h2] at h
        have := chopLit_len h2
        have h3 := dropLeadQuote_len rem1
        simp only [List.length_cons, ← h] at *
        omega
      | none => simp [h2] at h

theorem matchNamedAt_len {name l rem : List Char} (h : matchNamedAt name l = some rem) :
    rem.length < l.length := by
  cases l with
  | nil => simp [matchNamedAt] at h
  | cons c rest =>
    simp only [matchNamedAt] at h
    split at h
    · have := matchNamedTail_len h
      simp only [List.length_cons]
      omega
    · exact absurd h (by simp)

theorem replaceNamedF_eq (name : List Char) (ord : Nat) :
    ∀ fuel1 fuel2 l, l.length ≤ fuel1 → l.length ≤ fuel2 →
      replaceNamedF name ord fuel1 l = replaceNamedF name ord fuel2 l := by
  intro fuel1
  induction fuel1 with
  | zero =>
    intro fuel2 l h1 _
    have : l = [] := List.length_eq_zero.mp (Nat.le_zero.mp h1)
    subst this
    cases fuel2 <;> rfl
  | succ fuel1 ih =>
    intro fuel2 l h1 h2
    cases l with
    | nil => cases fuel2 <;> rfl
    | cons c rest =>
      cases fuel2 with
      | zero => simp at h2
      | succ fuel2 =>
        simp only [replaceNamedF]
        cases h : matchNamedAt name (c :: rest) with
        | some rem =>
          have hrem := matchNamedAt_len h
          simp only [List.length_cons] at hrem h1 h2
          show dollarMark ord ++ replaceNamedF name ord fuel1 rem =
            dollarMark ord ++ replaceNamedF name ord fuel2 rem
          rw [ih fuel2 rem (by omega) (by omega)]
        | none =>
          simp only [List.length_cons] at h1 h2
          show c :: replaceNamedF name ord fuel1 rest = c :: replaceNamedF name ord fuel2 rest
          rw [ih fuel2 rest (by omega) (by omega)]

/-- The recurrence actually satisfied by `replaceNamed`. -/
theorem replaceNamed_cons (name : List Char) (ord : Nat) (c : Char) (rest : List Char) :
    replaceNamed name ord (c :: rest) =
      match matchNamedAt name (c :: rest) with
      | some rem => dollarMark ord ++ replaceNamed name ord rem
      | none => c :: replaceNamed name ord rest := by
  simp only [replaceNamed, List.length_cons, replaceNamedF]
  cases h : matchNamedAt name (c :: rest) with
  | some rem =>
    have hrem := matchNamedAt_len h
    simp only [List.length_cons] at hrem
    show dollarMark ord ++ replaceNamedF name ord rest.length rem =
      dollarMark ord ++ replaceNamedF name ord rem.length rem
    rw [replaceNamedF_eq name ord rest.length rem.length rem (by omega) (by omega)]
  | none =>
    show c :: replaceNamedF name ord rest.length rest = c :: replaceNamedF name ord rest.length rest
    rfl

theorem chopLit_append (p s : List Char) : chopLit p (p ++ s) = some s := by
  induction p with
  | nil => rfl
  | cons c cs ih => simp [chopLit, ih]

theorem lookupA_isSome_iff {b : Type}
    (m : List (List Char × b)) (k : List Char) :
    (lookupA m k).isSome = true ↔ k ∈ m.map Prod.fst := by
  induction m with
  | nil => simp [lookupA]
  | cons p rest ih =>
    obtain ⟨k0, v0⟩ := p
    simp only [lookupA, List.map_cons, List.mem_cons]
    by_cases h : k = k0
    · rw [if_pos h]
      exact ⟨fun _ => Or.inl h, fun _ => rfl⟩
    · rw [if_neg h, ih]
      exact (or_iff_right h).symm

theorem lookupA_append_left {b : Type} {m : List (List Char × b)}
    {k : List Char} {v : b} (m2 : List (List Char × b))
    (h : lookupA m k = some v) : lookupA (m ++ m2) k = some v := by
  induction m with
  | nil => simp [lookupA] at h
  | cons p rest ih =>
    obtain ⟨k0, v0⟩ := p
    simp only [lookupA, List.cons_append] at h ⊢
    by_cases hk : k = k0
    · simp [hk] at h ⊢
      exact h
    · simp [hk] at h ⊢
      exact ih h

theorem setAssoc_mem {a b : Type} [DecidableEq a] {l : List (a × b)} {k : a} {v : b}
    {p : a × b} (h : p ∈ setAssoc l k v) : p = (k, v) ∨ p ∈ l := by
  induction l with
  | nil =>
    simp [setAssoc] at h
    exact Or.inl h
  | cons q rest ih =>
    obtain ⟨k0, v0⟩ := q
    simp only [setAssoc] at h
    split at h
    · rcases List.mem_cons.mp h with h1 | h1
      · exact Or.inl h1
      · exact Or.inr (List.mem_cons.mpr (Or.inr h1))
    · rcases List.mem_cons.mp h with h1 | h1
      · exact Or.inr (List.mem_cons.mpr (Or.inl h1))
      · rcases ih h1 with h2 | h2
        · exact Or.inl h2
        · exact Or.inr (List.mem_cons.mpr (Or.inr h2))

theorem setAssoc_ne_nil {a b : Type} [DecidableEq a] (l : List (a × b)) (k : a) (v : b) :
    setAssoc l k v ≠ [] := by
  cases l with
  | nil => simp [setAssoc]
  | cons q rest =>
    obtain ⟨k0, v0⟩ := q
    simp only [setAssoc]
    split <;> simp

theorem matchParamAt_self (m : Char) (rest : List Char) :
    matchParamAt m (m :: rest) = none := by
  cases rest with
  | nil => rfl
  | cons c1 r => simp [matchParamAt]

theorem firstOccs_congr {s1 s2 : List (List Char)}
    (h : ∀ w, w ∈ s1 ↔ w ∈ s2) : ∀ l, firstOccs s1 l = firstOccs s2 l := by
  intro l
  induction l generalizing s1 s2 with
  | nil => rfl
  | cons v rest ih =>
    simp only [firstOccs]
    by_cases hv : v ∈ s1
    · rw [if_pos hv, if_pos ((h v).mp hv)]
      exact ih h
    · rw [if_neg hv, if_neg (fun hc => hv ((h v).mpr hc))]
      have h2 : ∀ w, w ∈ v :: s1 ↔ w ∈ v :: s2 := by
        intro w
        simp only [List.mem_cons]
        exact or_congr Iff.rfl (h w)
      rw [ih h2]
theorem buildNamedGo_spec :
    ∀ (ms : List (List Char)) (m : List (List Char × Nat)) (pos : Nat),
      (buildNamedGo ms pos m).1 = ms.filter (fun v => !isReservedName v) ∧
      (buildNamedGo ms pos m).2 =
        m ++ numberFrom pos
          (firstOccs (m.map Prod.fst) (ms.filter (fun v => !isReservedName v))) := by
  intro ms
  induction ms with
  | nil =>
    intro m pos
    simp [buildNamedGo, firstOccs, numberFrom]
  | cons v rest ih =>
    intro m pos
    have hstep : buildNamedGo (v :: rest) pos m =
        if isReservedName v then buildNamedGo rest pos m
        else
          match lookupA m v with
          | some _ =>
            (v :: (buildNamedGo rest pos m).1, (buildNamedGo rest pos m).2)
          | none =>
            (v :: (buildNamedGo rest (pos + 1) (m ++ [(v, pos)])).1,
             (buildNamedGo rest (pos + 1) (m ++ [(v, pos)])).2) := rfl
    by_cases hr : isReservedName v = true
    · rw [hstep, if_pos hr]
      have hfilter : (v :: rest).filter (fun v => !isReservedName v) =
          rest.filter (fun v => !isReservedName v) := by
        simp [List.filter_cons, hr]
      rw [hfilter]
      exact ih m pos
    · have hrb : isReservedName v = false := Bool.not_eq_true _ |>.mp hr
      rw [hstep, if_neg hr]
      have hfilter : (v :: rest).filter (fun v => !isReservedName v) =
          v :: rest.filter (fun v => !isReservedName v) := by
        simp [List.filter_cons, hrb]
      rw [hfilter]
      cases hl : lookupA m v with
      | some w =>
        have hmem : v ∈ m.map Prod.fst := by
          rw [← lookupA_isSome_iff]
          simp [hl]
        simp only [firstOccs, if_pos hmem]
        exact ⟨by simp [(ih m pos).1], by simpa using (ih m pos).2⟩
      | none =>
        have hmem : v ∉ m.map Prod.fst := by
          rw [← lookupA_isSome_iff]
          simp [hl]
        have ih2 := ih (m ++ [(v, pos)]) (pos + 1)
        have hseen : ∀ w, w ∈ (m ++ [(v, pos)]).map Prod.fst ↔ w ∈ v :: m.map Prod.fst := by
          intro w
          simp [List.mem_append, List.mem_cons, or_comm]
        constructor
        · simp [ih2.1]
        · simp only [firstOccs, if_neg hmem, numberFrom]
          have := ih2.2
          rw [firstOccs_congr hseen] at this
          simp only [this, List.append_assoc, List.singleton_append]

theorem buildArgsFrom_spec :
    ∀ (k i : Nat),
      buildArgsFrom i k =
        ((List.range k).map (fun j => argName (i + j)),
         (List.range k).map (fun j => (argName (i + j), i + j))) := by
  intro k
  induction k with
  | zero => intro i; rfl
  | succ k ih =>
    intro i
    rw [List.range_succ_eq_map]
    simp only [buildArgsFrom, ih (i + 1), List.map_cons, List.map_map, Nat.add_zero,
      Prod.mk.injEq]
    constructor
    · congr 1
      apply List.map_congr_left
      intro j _
      simp only [Function.comp_apply]
      congr 1
      omega
    · congr 1
      apply List.map_congr_left
      intro j _
      simp only [Function.comp_apply]
      have h1 : i + 1 + j = i + (j + 1) := by omega
      rw [h1]

theorem splitNl_ne_nil : ∀ l : List Char, splitNl l ≠ [] := by
  intro l
  cases l with
  | nil => simp [splitNl]
  | cons c rest =>
    simp only [splitNl]
    split
    · simp
    · cases h : splitNl rest with
      | nil => simp
      | cons a as => simp

theorem splitNl_no_newline : ∀ {l : List Char}, '\n' ∉ l → splitNl l = [l] := by
  intro l
  induction l with
  | nil => intro _; rfl
  | cons c rest ih =>
    intro h
    have hc : c ≠ '\n' := fun he => h (he ▸ List.mem_cons_self c rest)
    have hrest : '\n' ∉ rest := fun hm => h (List.mem_cons.mpr (Or.inr hm))
    simp only [splitNl, if_neg hc]
    rw [ih hrest]

theorem splitNl_append_decomp (s : List Char) (hs : '\n' ∉ s) :
    ∀ x, ∃ pre last, splitNl x = pre ++ [last] ∧ splitNl (x ++ s) = pre ++ [last ++ s] := by
  intro x
  induction x with
  | nil => exact ⟨[], [], rfl, by simp [splitNl_no_newline hs]⟩
  | cons a r ih =>
    obtain ⟨pre, last, h1, h2⟩ := ih
    by_cases ha : a = '\n'
    · subst ha
      refine ⟨[] :: pre, last, ?_, ?_⟩
      · simp [splitNl, h1]
      · simp [splitNl, h2]
    · cases pre with
      | nil =>
        simp only [List.nil_append] at h1 h2
        refine ⟨[], a :: last, ?_, ?_⟩
        · simp [splitNl, ha, h1]
        · simp [splitNl, ha, h2]
      | cons p ps =>
        refine ⟨(a :: p) :: ps, last, ?_, ?_⟩
        · simp [splitNl, ha, h1]
        · simp [splitNl, ha, h2]

theorem hasDD_append_dd : ∀ (z w : List Char), hasDD (z ++ '-' :: '-' :: w) = true := by
  intro z w
  induction z with
  | nil => simp [hasDD]
  | cons a r ih =>
    simp only [List.cons_append, hasDD]
    split
    · rfl
    · exact ih

theorem lineTrunc_append_of_hasDD :
    ∀ (z : List Char), hasDD z = true → ∀ w, lineTrunc (z ++ w) = lineTrunc z := by
  intro z
  induction z with
  | nil => intro hz; simp [hasDD] at hz
  | cons a r ih =>
    intro hz w
    simp only [hasDD] at hz
    simp only [List.cons_append, lineTrunc]
    by_cases hcnd : a = '-' ∧ r.head? = some '-'
    · have hr : (r ++ w).head? = some '-' := by
        cases r with
        | nil => simp at hcnd
        | cons b bs => simpa using hcnd.2
      rw [if_pos ⟨hcnd.1, hr⟩, if_pos hcnd]
    · rw [if_neg hcnd] at hz
      cases r with
      | nil => simp [hasDD] at hz
      | cons b bs =>
        have hcnd2 : ¬ (a = '-' ∧ ((b :: bs) ++ w).head? = some '-') := by
          simpa using hcnd
        simp only [List.append_eq]
        rw [if_neg hcnd2, if_neg hcnd]
        rw [ih hz w]

theorem stripCommentsAppend {c : List Char} (hc : '\n' ∉ c) (x : List Char) :
    stripSQLComments (x ++ '-' :: '-' :: c) = stripSQLComments (x ++ ['-', '-']) := by
  have hne : ('\n' : Char) ≠ '-' := by decide
  have hs2 : ('\n' : Char) ∉ ('-' :: '-' :: c) := by
    simp [List.mem_cons, hne, hc]
  have hs1 : ('\n' : Char) ∉ (['-', '-'] : List Char) := by decide
  obtain ⟨pre1, last1, h11, h12⟩ := splitNl_append_decomp _ hs1 x
  obtain ⟨pre2, last2, h21, h22⟩ := splitNl_append_decomp _ hs2 x
  have heq := h11.symm.trans h21
  have hlen : pre1.length = pre2.length := by
    have hl := congrArg List.length heq
    simp at hl
    omega
  obtain ⟨hp, hq⟩ := List.append_inj heq hlen
  have hlast : last1 = last2 := by simpa using hq
  subst hp
  subst hlast
  have hlt : lineTrunc (last1 ++ '-' :: '-' :: c) = lineTrunc (last1 ++ ['-', '-']) := by
    have he : last1 ++ '-' :: '-' :: c = (last1 ++ ['-', '-']) ++ c := by simp
    rw [he]
    exact lineTrunc_append_of_hasDD (last1 ++ ['-', '-']) (hasDD_append_dd last1 []) c
  unfold stripSQLComments
  rw [h12, h22]
  simp only [List.map_append, List.map_cons, List.map_nil]
  rw [hlt]

theorem appendQueryLine_inv {st : ScanState} {line : List Char}
    (h : ∀ p ∈ st.queries, p.2.query ≠ [] ∨ p.2.metadata ≠ []) :
    ∀ p ∈ (appendQueryLine st line).queries, p.2.query ≠ [] ∨ p.2.metadata ≠ [] := by
  intro p hp
  simp only [appendQueryLine] at hp
  by_cases ht : trimLine line = []
  · rw [if_pos ht] at hp
    exact h p hp
  · rw [if_neg ht] at hp
    rcases setAssoc_mem hp with h1 | h1
    · subst h1
      left
      simp only
      split
      · exact ht
      · simp
    · exact h p h1

theorem appendMetadata_inv {st : ScanState} {key value : List Char}
    (h : ∀ p ∈ st.queries, p.2.query ≠ [] ∨ p.2.metadata ≠ []) :
    ∀ p ∈ (appendMetadata st key value).queries, p.2.query ≠ [] ∨ p.2.metadata ≠ [] := by
  intro p hp
  simp only [appendMetadata] at hp
  rcases setAssoc_mem hp with h1 | h1
  · subst h1
    right
    simp only
    exact setAssoc_ne_nil _ _ _
  · exact h p h1

theorem scanStep_inv (mode : ScanMode) (st : ScanState) (line : List Char)
    (h : ∀ p ∈ st.queries, p.2.query ≠ [] ∨ p.2.metadata ≠ []) :
    ∀ p ∈ (scanStep (mode, st) line).2.queries, p.2.query ≠ [] ∨ p.2.metadata ≠ [] := by
  cases mode with
  | seeking =>
    simp only [scanStep]
    cases getTag line with
    | some tag => exact h
    | none =>
      by_cases hcond : (trimSpace line = [] ∨ startsDD (trimSpace line) = true)
      · rw [if_pos hcond]
        exact h
      · rw [if_neg hcond]
        exact appendQueryLine_inv h
  | inBlock =>
    simp only [scanStep]
    cases getTag line with
    | some tag => exact h
    | none =>
      cases getMetadata line with
      | some kv => exact appendMetadata_inv h
      | none => exact appendQueryLine_inv h

theorem foldScan_inv :
    ∀ (lines : List (List Char)) (mode : ScanMode) (st : ScanState),
      (∀ p ∈ st.queries, p.2.query ≠ [] ∨ p.2.metadata ≠ []) →
      ∀ p ∈ (lines.foldl scanStep (mode, st)).2.queries,
        p.2.query ≠ [] ∨ p.2.metadata ≠ [] := by
  intro lines
  induction lines with
  | nil => intro mode st h; exact h
  | cons line rest ih =>
    intro mode st h
    simp only [List.foldl_cons]
    have h2 := scanStep_inv mode st line h
    have hpair : scanStep (mode, st) line =
        ((scanStep (mode, st) line).1, (scanStep (mode, st) line).2) := rfl
    rw [hpair]
    exact ih (scanStep (mode, st) line).1 (scanStep (mode, st) line).2 h2

theorem loadQueries_retains {path : List Char} :
    ∀ (blocks : List (List Char × ScannedQuery)) (store : List (List Char × Query))
      (name : List Char) (d : Query),
      lookupA store name = some d →
      lookupA (loadQueries path store blocks).1 name = some d := by
  intro blocks
  induction blocks with
  | nil => intro store name d h; exact h
  | cons b rest ih =>
    intro store name d h
    obtain ⟨n, sq⟩ := b
    simp only [loadQueries]
    split
    · exact h
    · cases hq : newQuery n path sq.query sq.metadata with
      | error e => exact h
      | ok q => exact ih (store ++ [(n, q)]) name d (lookupA_append_left _ h)

theorem loadQueries_dup_fails {path : List Char} :
    ∀ (blocks : List (List Char × ScannedQuery)) (store : List (List Char × Query))
      (name : List Char),
      (lookupA store name).isSome = true →
      name ∈ blocks.map Prod.fst →
      (∀ b ∈ blocks, ∃ q, newQuery b.1 path b.2.query b.2.metadata = Except.ok q) →
      ∃ n, (loadQueries path store blocks).2 = some (LoadError.duplicate n) := by
  intro blocks
  induction blocks with
  | nil => intro store name h hmem _; simp at hmem
  | cons b rest ih =>
    intro store name h hmem hok
    obtain ⟨n, sq⟩ := b
    simp only [loadQueries]
    by_cases hdup : (lookupA store n).isSome = true
    · rw [if_pos hdup]
      exact ⟨n, rfl⟩
    · rw [if_neg hdup]
      have hne : n ≠ name := by
        intro he
        subst he
        exact hdup h
      have hmem2 : name ∈ rest.map Prod.fst := by
        simp only [List.map_cons, List.mem_cons] at hmem
        rcases hmem with h1 | h1
        · exact absurd h1.symm hne
        · exact h1
      obtain ⟨q, hq⟩ := hok (n, sq) (List.mem_cons_self _ _)
      rw [hq]
      refine ih (store ++ [(n, q)]) name ?_ hmem2 ?_
      · cases hs : lookupA store name with
        | none => rw [hs] at h; simp at h
        | some d =>
          rw [lookupA_append_left _ hs]
          rfl
      · intro b hb
        exact hok b (List.mem_cons.mpr (Or.inr hb))

/-! ### Claim theorems -/

/-- C10: a colon- or at-named placeholder whose marker sits at the very
first character of the comment-stripped block text is never detected as
a parameter: both named-convention patterns require a preceding
character, so a leading marker contributes nothing to the match list,
while the same placeholder with one character before it is detected. -/
theorem c10_leading_marker_never_detected :
    (∀ rest : List Char, findAllParams ':' (':' :: rest) = findAllParams ':' rest) ∧
    (∀ rest : List Char, findAllParams '@' ('@' :: rest) = findAllParams '@' rest) ∧
    allNamedMatches (stripSQLComments (String.toList ":a = 1")) = [] ∧
    allNamedMatches (stripSQLComments (String.toList "( :a = 1)")) = [String.toList "a"] := by
  refine ⟨?_, ?_, by decide, by decide⟩
  · intro rest
    rw [findAllParams_cons, matchParamAt_self]
  · intro rest
    rw [findAllParams_cons, matchParamAt_self]

/-- C5: placeholder syntax appearing only inside a trailing-comment
portion of a line is never detected: text after a `--` marker (up to the
end of the line) never changes the comment-stripped text used for
detection, and concretely `SELECT 1; -- :user_id` yields zero
occurrences while `SELECT 1 WHERE id = :user_id; -- :user_id` yields
exactly one occurrence `user_id`. -/
theorem c5_comments_never_mined :
    (∀ (x c : List Char), '\n' ∉ c →
      allNamedMatches (stripSQLComments (x ++ '-' :: '-' :: c)) =
        allNamedMatches (stripSQLComments (x ++ ['-', '-']))) ∧
    analyzedArgs (newQuery (String.toList "q1") (String.toList "t")
      (String.toList "SELECT 1; -- :user_id") []) = some [] ∧
    analyzedArgs (newQuery (String.toList "q2") (String.toList "t")
      (String.toList "SELECT 1 WHERE id = :user_id; -- :user_id") []) =
      some [String.toList "user_id"] := by
  refine ⟨?_, by decide, by decide⟩
  intro x c hc
  rw [stripCommentsAppend hc x]

/-- Witness for C5: the general part applied to the line
`SELECT 1 --` with comment text ` :hidden`. -/
theorem c5_comments_never_mined_witness :
    ('\n' ∉ String.toList " :hidden") ∧
    allNamedMatches (stripSQLComments
        (String.toList "SELECT 1 " ++ '-' :: '-' :: String.toList " :hidden")) =
      allNamedMatches (stripSQLComments (String.toList "SELECT 1 " ++ ['-', '-'])) :=
  ⟨by decide, c5_comments_never_mined.1 (String.toList "SELECT 1 ")
    (String.toList " :hidden") (by decide)⟩

/-- C3 counterexample: for the block content
`:x = :x OR :y = :y OR :x = :z` the occurrence list is
`[x, y, y, x, z]`, not `[x, x, y, y, x, z]` as claimed — the leading
`:x` sits at the first character and the colon pattern requires a
preceding character, so it is not detected. -/
theorem c3_occurrence_counterexample :
    analyzedArgs (newQuery (String.toList "q") (String.toList "t")
      (String.toList ":x = :x OR :y = :y OR :x = :z") []) =
      some [String.toList "x", String.toList "y", String.toList "y",
            String.toList "x", String.toList "z"] ∧
    analyzedArgs (newQuery (String.toList "q") (String.toList "t")
      (String.toList ":x = :x OR :y = :y OR :x = :z") []) ≠
      some [String.toList "x", String.toList "x", String.toList "y",
            String.toList "y", String.toList "x", String.toList "z"] := by
  constructor
  · decide
  · decide

/-- C3 amended: the i-th distinct detected name receives ordinal i and
re-occurrences reuse their ordinal while still being appended to the
occurrence list (the occurrence list is the full match list minus
reserved names, and the binding table numbers the distinct names in
first-occurrence order starting at 1); for the content
`:x = :x OR :y = :y OR :x = :z`, whose leading `:x` is not detected,
the occurrence list is `[x, y, y, x, z]` and the binding table is
`{x : 1, y : 2, z : 3}`. -/
theorem c3_ordinal_assignment :
    (∀ ms : List (List Char),
      (buildNamedGo ms 1 []).1 = ms.filter (fun v => !isReservedName v) ∧
      (buildNamedGo ms 1 []).2 =
        numberFrom 1 (firstOccs [] (ms.filter (fun v => !isReservedName v)))) ∧
    analyzedArgs (newQuery (String.toList "q") (String.toList "t")
      (String.toList ":x = :x OR :y = :y OR :x = :z") []) =
      some [String.toList "x", String.toList "y", String.toList "y",
            String.toList "x", String.toList "z"] ∧
    analyzedMapping (newQuery (String.toList "q") (String.toList "t")
      (String.toList ":x = :x OR :y = :y OR :x = :z") []) =
      some [(String.toList "x", 1), (String.toList "y", 2), (String.toList "z", 3)] := by
  refine ⟨?_, by decide, by decide⟩
  intro ms
  have h := buildNamedGo_spec ms [] 1
  simpa using h

/-- C1 counterexample: the replacement pattern for parameter name `a`
also matches the beginning of the longer placeholder `:abc`, so the
replacement of the shorter name rewrites part of the longer name's
placeholder, leaving `$1bc` instead of keeping `:abc` intact. -/
theorem c1_prefix_rewrite_counterexample :
    replaceNamed (String.toList "a") 1 (String.toList "WHERE :a = :abc") =
      String.toList "WHERE $1 = $1bc" ∧
    replaceNamed (String.toList "a") 1 (String.toList "WHERE :a = :abc") ≠
      String.toList "WHERE $1 = :abc" := by
  constructor
  · decide
  · decide

/-- C1 amended: the replacement pattern anchors only on the `[:@]`
marker, optional quotes and the name's characters, with no trailing
identifier-boundary requirement; a marker followed by the name is
rewritten to the ordinal marker even when further identifier characters
follow, so when one parameter name is a proper prefix of another the
replacement of the shorter name rewrites the marker-and-prefix of the
longer name's placeholder (the final text then depends on the
unspecified map iteration order). -/
theorem c1_replacement_ignores_boundary (n0 c : Char) (ns rest : List Char) (ord : Nat)
    (hq0 : isQuoteCh n0 = false) (hqc : isQuoteCh c = false) (hic : isIdentCh c = true) :
    replaceNamed (n0 :: ns) ord (':' :: ((n0 :: ns) ++ c :: rest)) =
      dollarMark ord ++ replaceNamed (n0 :: ns) ord (c :: rest) := by
  rw [replaceNamed_cons]
  have hm : matchNamedAt (n0 :: ns) (':' :: ((n0 :: ns) ++ c :: rest)) =
      some (c :: rest) := by
    have hshape : (n0 :: ns) ++ c :: rest = n0 :: (ns ++ c :: rest) := rfl
    simp only [matchNamedAt, if_pos (Or.inl rfl), hshape]
    show matchNamedTail (n0 :: ns) (n0 :: (ns ++ c :: rest)) = some (c :: rest)
    simp only [matchNamedTail]
    rw [if_neg (by simp [hq0])]
    have hchop : chopLit (n0 :: ns) (n0 :: (ns ++ c :: rest)) = some (c :: rest) := by
      have h := chopLit_append (n0 :: ns) (c :: rest)
      simpa using h
    rw [hchop]
    simp [dropLeadQuote, hqc]
  rw [hm]

/-- Witness for C1 amended: name `a`, continuation character `b`. -/
theorem c1_replacement_ignores_boundary_witness :
    replaceNamed ['a'] 1 (':' :: (['a'] ++ 'b' :: String.toList "c = 1")) =
      dollarMark 1 ++ replaceNamed ['a'] 1 ('b' :: String.toList "c = 1") :=
  c1_replacement_ignores_boundary 'a' 'b' [] (String.toList "c = 1") 1
    (by decide) (by decide) (by decide)

/-- C2 counterexample: for the block
`SELECT 1 WHERE id = :user_id; -- :user_id` the ordinal substitution is
performed on the original text, so the trailing-comment portion of the
resulting ordinal text is `-- $1`, which differs from the raw comment
text `-- :user_id`. -/
theorem c2_comment_rewritten_counterexample :
    analyzedOrdinal (newQuery (String.toList "q") (String.toList "t")
      (String.toList "SELECT 1 WHERE id = :user_id; -- :user_id") []) =
      some (headerLine (String.toList "q") ++
        String.toList "SELECT 1 WHERE id = $1; -- $1") ∧
    commentPart (String.toList "SELECT 1 WHERE id = $1; -- $1") =
      String.toList "-- $1" ∧
    commentPart (String.toList "SELECT 1 WHERE id = :user_id; -- :user_id") =
      String.toList "-- :user_id" ∧
    commentPart (String.toList "SELECT 1 WHERE id = $1; -- $1") ≠
      commentPart (String.toList "SELECT 1 WHERE id = :user_id; -- :user_id") := by
  refine ⟨by decide, by decide, by decide, by decide⟩

/-- C2 amended: comment text is never mined for placeholders (text after
a `--` marker never changes the stripped text used for detection), but
ordinal substitution runs on the original text, so a trailing comment
containing the placeholder pattern of a detected parameter name is
rewritten in the ordinal text. -/
theorem c2_detection_vs_substitution :
    (∀ (x c : List Char), '\n' ∉ c →
      allNamedMatches (stripSQLComments (x ++ '-' :: '-' :: c)) =
        allNamedMatches (stripSQLComments (x ++ ['-', '-']))) ∧
    analyzedOrdinal (newQuery (String.toList "q") (String.toList "t")
      (String.toList "SELECT :a; -- :a") []) =
      some (headerLine (String.toList "q") ++ String.toList "SELECT $1; -- $1") := by
  refine ⟨?_, by decide⟩
  intro x c hc
  rw [stripCommentsAppend hc x]

/-- Witness for C2 amended: the general part applied to the line
`SELECT :a; --` with comment text ` :a $2`. -/
theorem c2_detection_vs_substitution_witness :
    ('\n' ∉ String.toList " :a $2") ∧
    allNamedMatches (stripSQLComments
        (String.toList "SELECT :a; " ++ '-' :: '-' :: String.toList " :a $2")) =
      allNamedMatches (stripSQLComments (String.toList "SELECT :a; " ++ ['-', '-'])) :=
  ⟨by decide, c2_detection_vs_substitution.1 (String.toList "SELECT :a; ")
    (String.toList " :a $2") (by decide)⟩

/-- C6 counterexample: the block `a = $99999999999999999999` uses the
ordinal convention and its only marker's numeral is
99999999999999999999, which exceeds `MaxInt64`; `Sscanf`'s range error
is ignored so the parsed ordinal stays zero, and the program produces an
empty binding table and occurrence list instead of the
99999999999999999999 contiguous entries the claim demands for its
highest marker. -/
theorem c6_overflow_counterexample :
    findAllPositional (stripSQLComments (String.toList "a = $99999999999999999999")) =
      [String.toList "99999999999999999999"] ∧
    digitsVal (String.toList "99999999999999999999") = 99999999999999999999 ∧
    digitsToNat (String.toList "99999999999999999999") = 0 ∧
    analyzedMapping (newQuery (String.toList "q") (String.toList "t")
      (String.toList "a = $99999999999999999999") []) = some [] ∧
    analyzedArgs (newQuery (String.toList "q") (String.toList "t")
      (String.toList "a = $99999999999999999999") []) = some [] ∧
    (99999999999999999999 : Nat) ≠ 0 := by
  refine ⟨by decide, by decide, by decide, by decide, by decide, by decide⟩

/-- C6 amended: for a block using the ordinal convention (and no named
convention), with `N` the highest marker value as parsed by `Sscanf`
into a 64-bit `int` initialized to zero (a digit run exceeding
`MaxInt64` fails the ignored `Sscanf` and counts as zero), the binding
table has exactly `N` entries `arg1..argN` mapped to ordinals `1..N`
(gaps filled), the occurrence list is `[arg1, ..., argN]` in order, and
no text rewriting occurs: the ordinal text is the synthesized header
followed by the unmodified raw body. -/
theorem c6_positional_contiguous (name path q : List Char)
    (md : List (List Char × List Char))
    (hpos : findAllPositional (stripSQLComments q) ≠ [])
    (hcolon : filterReservedNames (findAllParams ':' (stripSQLComments q)) = [])
    (hat : filterReservedNames (findAllParams '@' (stripSQLComments q)) = []) :
    newQuery name path q md = Except.ok
      { name := name, path := path, raw := q,
        ordinalQuery := headerLine name ++ q,
        mapping := (List.range (maxOrdinal (findAllPositional (stripSQLComments q)))).map
          (fun j => (argName (1 + j), 1 + j)),
        args := (List.range (maxOrdinal (findAllPositional (stripSQLComments q)))).map
          (fun j => argName (1 + j)),
        metadata := md } := by
  have hstyles : stylesFound q = [ParamStyle.positional] := by
    simp only [stylesFound]
    rw [if_pos hpos, if_neg (fun hne => hne hcolon), if_neg (fun hne => hne hat)]
    rfl
  simp only [newQuery, hstyles]
  rw [if_neg (by decide), if_pos hpos]
  simp only [handlePositionalParams, buildArgsFrom_spec]

/-- Witness for C6: the single-marker block `WHERE a = $2` yields the
contiguous table `arg1 -> 1, arg2 -> 2` even though `$1` is absent. -/
theorem c6_positional_contiguous_witness :
    newQuery (String.toList "w") (String.toList "t") (String.toList "WHERE a = $2") [] =
      Except.ok
        { name := String.toList "w", path := String.toList "t",
          raw := String.toList "WHERE a = $2",
          ordinalQuery := headerLine (String.toList "w") ++ String.toList "WHERE a = $2",
          mapping := (List.range (maxOrdinal (findAllPositional
            (stripSQLComments (String.toList "WHERE a = $2"))))).map
            (fun j => (argName (1 + j), 1 + j)),
          args := (List.range (maxOrdinal (findAllPositional
            (stripSQLComments (String.toList "WHERE a = $2"))))).map
            (fun j => argName (1 + j)),
          metadata := [] } :=
  c6_positional_contiguous (String.toList "w") (String.toList "t")
    (String.toList "WHERE a = $2") [] (by decide) (by decide) (by decide)

/-- C7: analysis fails with a mixed-parameter-style error naming the
found conventions exactly when the comment-stripped content has
non-reserved matches of at least two conventions; with at most one
convention the analysis always produces a descriptor. -/
theorem c7_single_style_validation (name path q : List Char)
    (md : List (List Char × List Char)) :
    (2 ≤ (stylesFound q).length →
      newQuery name path q md =
        Except.error (QueryError.mixedStyles name (stylesFound q))) ∧
    ((stylesFound q).length ≤ 1 → ∃ d, newQuery name path q md = Except.ok d) := by
  constructor
  · intro h
    simp only [newQuery]
    rw [if_pos h]
  · intro h
    simp only [newQuery]
    rw [if_neg (by omega)]
    split
    · exact ⟨_, rfl⟩
    · exact ⟨_, rfl⟩

/-- Witness for C7: `x = $1 AND y = :b` mixes positional and colon
styles and fails with an error naming both; `x = :b` uses one style and
succeeds. -/
theorem c7_single_style_validation_witness :
    newQuery (String.toList "q") (String.toList "t")
        (String.toList "x = $1 AND y = :b") [] =
      Except.error (QueryError.mixedStyles (String.toList "q")
        (stylesFound (String.toList "x = $1 AND y = :b"))) ∧
    stylesFound (String.toList "x = $1 AND y = :b") =
      [ParamStyle.positional, ParamStyle.colon] ∧
    (∃ d, newQuery (String.toList "q") (String.toList "t")
        (String.toList "x = :b") [] = Except.ok d) := by
  refine ⟨(c7_single_style_validation _ _ _ _).1 (by decide), by decide,
    (c7_single_style_validation _ _ _ _).2 (by decide)⟩

/-- C4 counterexample: a block under whose name only a metadata line was
seen is emitted with an empty body — the scanner's result for
`-- name: foo` followed by `-- description: bar` contains the block
`foo` with empty body, contradicting the claim that empty-bodied blocks
are never emitted. -/
theorem c4_metadata_only_block_emitted :
    runScanner (String.toList "test")
        [String.toList "-- name: foo", String.toList "-- description: bar"] =
      [(String.toList "foo",
        { query := [],
          metadata := [(String.toList "description", String.toList "bar")] })] ∧
    (String.toList "foo",
      ({ query := [],
         metadata := [(String.toList "description", String.toList "bar")] } :
        ScannedQuery)) ∈
      runScanner (String.toList "test")
        [String.toList "-- name: foo", String.toList "-- description: bar"] ∧
    ({ query := [],
       metadata := [(String.toList "description", String.toList "bar")] } :
      ScannedQuery).query = [] := by
  refine ⟨by decide, by decide, rfl⟩

/-- C4 amended: every emitted block has at least one content line or at
least one metadata entry; in particular a block that is opened and
immediately ended is never emitted, but a block whose name saw only
metadata lines is emitted with an empty body. -/
theorem c4_emitted_blocks_nontrivial :
    (∀ (defaultName : List Char) (lines : List (List Char)),
      ∀ p ∈ runScanner defaultName lines, p.2.query ≠ [] ∨ p.2.metadata ≠ []) ∧
    runScanner (String.toList "t") [String.toList "-- name: foo"] = [] := by
  refine ⟨?_, by decide⟩
  intro defaultName lines p hp
  exact foldScan_inv lines ScanMode.seeking
    { queries := [], current := defaultName } (by intro q hq; simp at hq) p hp

/-- Witness for C4 amended: the block `tq` scanned from a name directive
plus one content line is emitted and satisfies the invariant. -/
theorem c4_emitted_blocks_nontrivial_witness :
    String.toList "SELECT 1;" ≠ ([] : List Char) ∨
      ([] : List (List Char × List Char)) ≠ [] :=
  c4_emitted_blocks_nontrivial.1 (String.toList "t")
    [String.toList "-- name: tq", String.toList "SELECT 1;"]
    (String.toList "tq", { query := String.toList "SELECT 1;", metadata := [] })
    (by decide)

/-- C8: loading a source that defines a block whose name is already in
the registry fails with a duplicate-name error (provided every block of
the source analyzes successfully), and the registry's descriptor for
that name is retained unchanged — the duplicate never overwrites it. -/
theorem c8_duplicate_name_rejected (path name : List Char)
    (store : List (List Char × Query)) (blocks : List (List Char × ScannedQuery))
    (d : Query) (h1 : lookupA store name = some d)
    (h2 : name ∈ blocks.map Prod.fst)
    (h3 : ∀ b ∈ blocks, ∃ q, newQuery b.1 path b.2.query b.2.metadata = Except.ok q) :
    (∃ n, (loadQueries path store blocks).2 = some (LoadError.duplicate n)) ∧
    lookupA (loadQueries path store blocks).1 name = some d := by
  constructor
  · exact loadQueries_dup_fails blocks store name (by simp [h1]) h2 h3
  · exact loadQueries_retains blocks store name d h1

/-- Witness for C8: a registry holding `get-user` rejects a second
source defining `get-user` and keeps the original descriptor. -/
theorem c8_duplicate_name_rejected_witness :
    (∃ n, (loadQueries (String.toList "t")
      [(String.toList "get-user",
        { name := String.toList "get-user", path := String.toList "first",
          raw := String.toList "SELECT 42;",
          ordinalQuery := String.toList "SELECT 42;", mapping := [], args := [],
          metadata := [] })]
      [(String.toList "get-user",
        { query := String.toList "SELECT 1;", metadata := [] })]).2 =
      some (LoadError.duplicate n)) ∧
    lookupA (loadQueries (String.toList "t")
      [(String.toList "get-user",
        { name := String.toList "get-user", path := String.toList "first",
          raw := String.toList "SELECT 42;",
          ordinalQuery := String.toList "SELECT 42;", mapping := [], args := [],
          metadata := [] })]
      [(String.toList "get-user",
        { query := String.toList "SELECT 1;", metadata := [] })]).1
      (String.toList "get-user") =
      some ({ name := String.toList "get-user", path := String.toList "first",
              raw := String.toList "SELECT 42;",
              ordinalQuery := String.toList "SELECT 42;", mapping := [], args := [],
              metadata := [] } : Query) :=
  c8_duplicate_name_rejected (String.toList "t") (String.toList "get-user")
    [(String.toList "get-user",
      { name := String.toList "get-user", path := String.toList "first",
        raw := String.toList "SELECT 42;",
        ordinalQuery := String.toList "SELECT 42;", mapping := [], args := [],
        metadata := [] })]
    [(String.toList "get-user",
      { query := String.toList "SELECT 1;", metadata := [] })]
    { name := String.toList "get-user", path := String.toList "first",
      raw := String.toList "SELECT 42;",
      ordinalQuery := String.toList "SELECT 42;", mapping := [], args := [],
      metadata := [] }
    (by decide) (by decide)
    (by
      intro b hb
      simp only [List.mem_singleton] at hb
      subst hb
      exact ⟨{ name := String.toList "get-user", path := String.toList "t",
               raw := String.toList "SELECT 1;",
               ordinalQuery := headerLine (String.toList "get-user") ++
                 String.toList "SELECT 1;",
               mapping := [], args := [], metadata := [] }, by decide⟩)

/-- C9: for every descriptor and every argument table, `prepare` returns
a sequence whose length equals the size of the binding table, laid out
as the binding table's entries sorted by ascending ordinal, where each
position holds the table lookup for that ordinal's name — a name absent
from the table yields an explicit `none` placeholder at its position
instead of a shorter sequence or a failure. -/
theorem c9_prepare_ordered_total (V : Type) (q : Query)
    (argTable : List (List Char × V)) :
    ∃ sorted : List (List Char × Nat),
      List.Perm sorted q.mapping ∧ List.Sorted leOrd sorted ∧
      prepare argTable q.mapping = sorted.map (fun p => lookupA argTable p.1) ∧
      (prepare argTable q.mapping).length = q.mapping.length := by
  refine ⟨List.insertionSort leOrd q.mapping, List.perm_insertionSort _ _,
    List.sorted_insertionSort _ _, rfl, ?_⟩
  simp only [prepare, List.length_map]
  exact (List.perm_insertionSort leOrd q.mapping).length_eq
end Queries
